import Mathlib

/-!
Verification of the elementwise algebra layer of `Eigen/src/Array/ArrayBase.h`.

The concrete storage container is modelled as `Array2D`: a row count, a column
count, and a flat row-major coefficient list.  `coeff i j` reads the linear
position `i * cols + j`, matching the dense coefficient access the header
forwards from its dense-expression base class.

The compound-assignment operator bodies in the header each bind a
`SelfCwiseBinaryOp` update target to the destination and assign the right-hand
side into it.  That update target's evaluation (from the spec, §4.3) is a
single in-place pass over the destination's index range, writing
`dest[k] = combine(dest[k], source value at k)` position by position; it is
modelled here by `inPlaceUpdate`, where the source reads the *current* buffer
state so that aliasing between source and destination is representable.
-/

namespace EigenArrayBase

structure Array2D (α : Type) where
  rows : Nat
  cols : Nat
  data : List α
deriving Repr, DecidableEq

variable {α : Type}

/-- Dense coefficient read at row-major linear position `i * cols + j`. -/
def Array2D.coeff [Inhabited α] (A : Array2D α) (i j : Nat) : α :=
  A.data.getD (i * A.cols + j) default

/-- One in-place pass over the index list `ks`: at each index `k` the buffer is
rewritten to `combine (buf[k]) (src buf k)`, where `src` reads the current
(partially updated) buffer, so destination/source aliasing is observable. -/
def updateFrom [Inhabited α] (f : α → α → α) (src : List α → Nat → α)
    (buf : List α) (ks : List Nat) : List α :=
  ks.foldl (fun b k => b.set k (f (b.getD k default) (src b k))) buf

/-- Modelled from the spec: `SelfCwiseBinaryOp` evaluation (§4.3, not under
`src/`) — for each coefficient position, in a single pass over the
destination's index range and with no full-size temporary, the destination is
rewritten in place to `combine(destination.coeff, source.coeff)`. -/
def inPlaceUpdate [Inhabited α] (f : α → α → α) (src : List α → Nat → α)
    (buf : List α) : List α :=
  updateFrom f src buf (List.range buf.length)

/-- Modelled from the spec: the lazy cwise binary node with its runtime
shape-compatibility assertion (plugin `CommonCwiseBinaryOps.h` and the
assertion machinery, not under `src/`) — combining two dynamically sized
operands of unequal shape is a fatal, non-recoverable abort (`none`) that
produces no result and writes no coefficient; otherwise the node's coefficient
at `(i,j)` is `combine(lhs.coeff(i,j), rhs.coeff(i,j))`, materialized here. -/
def cwiseBinaryOp (f : α → α → α) (A B : Array2D α) : Option (Array2D α) :=
  if A.rows = B.rows ∧ A.cols = B.cols then
    some ⟨A.rows, A.cols, List.zipWith f A.data B.data⟩
  else none

/-- Compound assignment `A op= B` with an expression right-hand side
(`ArrayBase::operator+=`/`-=`/`*=`/`/=`, ArrayBase.h lines 175–225): a
`SelfCwiseBinaryOp` update target is bound to the destination and the source
is assigned into it.  A shape mismatch is a fatal abort (`none`); otherwise
the destination buffer is rewritten in a single in-place pass.  The source
here is an independent array that does not alias the destination. -/
def compoundAssignExt [Inhabited α] (f : α → α → α) (A B : Array2D α) :
    Option (Array2D α) :=
  if A.rows = B.rows ∧ A.cols = B.cols then
    some ⟨A.rows, A.cols,
          inPlaceUpdate f (fun _ k => B.data.getD k default) A.data⟩
  else none

/-- Compound assignment whose right-hand side is the destination object itself
(e.g. `A *= A`): the in-place pass's source reads the destination's current
buffer at the very index being written (same-index aliasing). -/
def compoundAssignSelf [Inhabited α] (f : α → α → α) (A : Array2D α) : Array2D α :=
  ⟨A.rows, A.cols, inPlaceUpdate f (fun b k => b.getD k default) A.data⟩

/-- Modelled from the spec: the scalar-broadcast binary node (plugin
`ArrayCwiseBinaryOps.h`, not under `src/`) — `A op s` applies the combining
function at every coefficient with the scalar broadcast to every position. -/
def scalarCwise (f : α → α → α) (A : Array2D α) (s : α) : Array2D α :=
  ⟨A.rows, A.cols, A.data.map (fun x => f x s)⟩

/-- Modelled from the spec: `ei_assign_selector::run(dst, src)` (not under
`src/`) — materializes the source into the destination's storage. -/
def assign_selector_run (dst src : Array2D α) : Array2D α :=
  ⟨src.rows, src.cols, src.data⟩

/-- `operator=(const ArrayBase& other)` (ArrayBase.h lines 131–134): forwards
to `ei_assign_selector::run(derived(), other.derived())`.  Modelled as a pair
(post-state of the destination, value returned by the operator). -/
def operator_assign (dst src : Array2D α) : Array2D α × Array2D α :=
  let s := assign_selector_run dst src
  (s, s)

/-- Modelled from the spec: the generic template assignment whose implicit
default the explicit overload suppresses (not under `src/`) — it forwards to
the same assignment-selection dispatch and materializes the source into the
destination's storage. -/
def operator_assign_generic (dst src : Array2D α) : Array2D α × Array2D α :=
  let s := assign_selector_run dst src
  (s, s)

/-- `operator+=(const Scalar&)` (ArrayBase.h lines 136–137): eager
self-reassignment `*this = derived() + scalar`. -/
def op_pluseq_scalar [Add α] (A : Array2D α) (s : α) : Array2D α × Array2D α :=
  operator_assign A (scalarCwise (· + ·) A s)

/-- `operator-=(const Scalar&)` (ArrayBase.h lines 138–139): eager
self-reassignment `*this = derived() - scalar`. -/
def op_minuseq_scalar [Sub α] (A : Array2D α) (s : α) : Array2D α × Array2D α :=
  operator_assign A (scalarCwise (· - ·) A s)

/-- `operator+=` with an expression right-hand side (ArrayBase.h 189–197):
`SelfCwiseBinaryOp` with `ei_scalar_sum_op`, then `return derived()` —
the pair is (post-state, returned value read after the in-place pass). -/
def op_pluseq [Inhabited α] [Add α] (A B : Array2D α) :
    Option (Array2D α × Array2D α) :=
  (compoundAssignExt (· + ·) A B).map (fun s => (s, s))

/-- `operator-=` with an expression right-hand side (ArrayBase.h 175–183):
`SelfCwiseBinaryOp` with `ei_scalar_difference_op`, then `return derived()`. -/
def op_minuseq [Inhabited α] [Sub α] (A B : Array2D α) :
    Option (Array2D α × Array2D α) :=
  (compoundAssignExt (· - ·) A B).map (fun s => (s, s))

/-- `operator*=` with an expression right-hand side (ArrayBase.h 203–211):
`SelfCwiseBinaryOp` with `ei_scalar_product_op`, then `return derived()`. -/
def op_timeseq [Inhabited α] [Mul α] (A B : Array2D α) :
    Option (Array2D α × Array2D α) :=
  (compoundAssignExt (· * ·) A B).map (fun s => (s, s))

/-- `operator/=` with an expression right-hand side (ArrayBase.h 217–225):
`SelfCwiseBinaryOp` with `ei_scalar_quotient_op`, then `return derived()`;
the raw quotient is applied at every position, with no zero-divisor guard
anywhere on this path. -/
def op_diveq [Inhabited α] [Div α] (A B : Array2D α) :
    Option (Array2D α × Array2D α) :=
  (compoundAssignExt (· / ·) A B).map (fun s => (s, s))

/-- `A *= A` — `operator*=` invoked with the destination itself as the
right-hand side: the in-place pass's source aliases the destination at the
same index. -/
def op_timeseq_self [Inhabited α] [Mul α] (A : Array2D α) : Array2D α × Array2D α :=
  let s := compoundAssignSelf (· * ·) A
  (s, s)

/-- Modelled from the spec: `MatrixWrapper` (declared but not defined under
`src/`) — a zero-copy view-duality wrapper over the identical underlying
coefficients, reinterpreting array capability as matrix capability. -/
structure MatrixWrapper (α : Type) where
  expr : Array2D α
deriving Repr, DecidableEq

/-- `ArrayBase::array()` (ArrayBase.h lines 153–154): returns `*this`. -/
def Array2D.array (A : Array2D α) : Array2D α := A

/-- `ArrayBase::matrix()` (ArrayBase.h lines 156–157): returns
`MatrixWrapper(derived())`. -/
def Array2D.matrix (A : Array2D α) : MatrixWrapper α := ⟨A⟩

def MatrixWrapper.rows (M : MatrixWrapper α) : Nat := M.expr.rows

def MatrixWrapper.cols (M : MatrixWrapper α) : Nat := M.expr.cols

def MatrixWrapper.coeff [Inhabited α] (M : MatrixWrapper α) (i j : Nat) : α :=
  M.expr.coeff i j

/-- Modelled from the spec: the complementary matrix→array conversion (§4.4,
not under `src/`) — a zero-copy view over the identical underlying
coefficients of the wrapped expression. -/
def MatrixWrapper.array (M : MatrixWrapper α) : Array2D α := M.expr

theorem updateFrom_length [Inhabited α] (f : α → α → α) (src : List α → Nat → α)
    (ks : List Nat) (buf : List α) :
    (updateFrom f src buf ks).length = buf.length := by
  induction ks generalizing buf with
  | nil => rfl
  | cons k ks ih =>
      simp only [updateFrom, List.foldl_cons] at *
      rw [ih, List.length_set]

theorem inPlaceUpdate_length [Inhabited α] (f : α → α → α) (src : List α → Nat → α)
    (buf : List α) : (inPlaceUpdate f src buf).length = buf.length :=
  updateFrom_length f src _ buf

theorem getD_set_eval [Inhabited α] (l : List α) (n j : Nat) (a : α) :
    (l.set n a).getD j default =
      if j = n ∧ n < l.length then a else l.getD j default := by
  by_cases hj : j = n
  · subst hj
    by_cases hn : j < l.length
    · simp [hn, List.getD_eq_getElem?_getD, List.getElem?_set_self, hn]
    · simp [hn, List.set_eq_of_length_le (Nat.le_of_not_lt hn)]
  · simp [hj, List.getD_eq_getElem?_getD, List.getElem?_set_ne (fun h => hj h.symm)]

/-- After updating positions `0..n-1` from a buffer-independent source `g`,
each updated position holds `f old (g j)` and positions `≥ n` are untouched. -/
theorem updateFrom_range_ext [Inhabited α] (f : α → α → α) (g : Nat → α)
    (buf : List α) (n j : Nat) :
    (updateFrom f (fun _ k => g k) buf (List.range n)).getD j default =
      if j < n ∧ j < buf.length then f (buf.getD j default) (g j)
      else buf.getD j default := by
  induction n generalizing j with
  | zero => simp [updateFrom]
  | succ n ih =>
      rw [List.range_succ]
      simp only [updateFrom, List.foldl_append, List.foldl_cons, List.foldl_nil]
      rw [show (List.range n).foldl
            (fun b k => b.set k (f (b.getD k default) ((fun _ k => g k) b k))) buf
          = updateFrom f (fun _ k => g k) buf (List.range n) from rfl]
      rw [getD_set_eval, updateFrom_length]
      have hXn := ih n
      simp only [Nat.lt_irrefl, false_and, if_false] at hXn
      rw [hXn, ih j]
      by_cases hj : j = n
      · subst hj
        by_cases hl : j < buf.length
        · simp [hl, Nat.lt_succ_self]
        · simp [hl]
      · by_cases hjn : j < n
        · simp [hj, hjn, Nat.lt_succ_of_lt hjn]
        · have hns : ¬ j < n + 1 := by omega
          simp [hj, hjn, hns]

/-- After updating positions `0..n-1` from the self-aliasing source (the source
reads the current buffer at the same index), each updated position holds
`f old old`: position `k` is read before it is overwritten and no earlier step
touched it. -/
theorem updateFrom_range_self [Inhabited α] (f : α → α → α)
    (buf : List α) (n j : Nat) :
    (updateFrom f (fun b k => b.getD k default) buf (List.range n)).getD j default =
      if j < n ∧ j < buf.length then f (buf.getD j default) (buf.getD j default)
      else buf.getD j default := by
  induction n generalizing j with
  | zero => simp [updateFrom]
  | succ n ih =>
      rw [List.range_succ]
      simp only [updateFrom, List.foldl_append, List.foldl_cons, List.foldl_nil]
      rw [show (List.range n).foldl
            (fun b k => b.set k (f (b.getD k default) (b.getD k default))) buf
          = updateFrom f (fun b k => b.getD k default) buf (List.range n) from rfl]
      rw [getD_set_eval, updateFrom_length]
      have hXn := ih n
      simp only [Nat.lt_irrefl, false_and, if_false] at hXn
      rw [hXn, ih j]
      by_cases hj : j = n
      · subst hj
        by_cases hl : j < buf.length
        · simp [hl, Nat.lt_succ_self]
        · simp [hl]
      · by_cases hjn : j < n
        · simp [hj, hjn, Nat.lt_succ_of_lt hjn]
        · have hns : ¬ j < n + 1 := by omega
          simp [hj, hjn, hns]

theorem linear_index_lt {r c i j : Nat} (hi : i < r) (hj : j < c) :
    i * c + j < r * c :=
  calc i * c + j < i * c + c := Nat.add_lt_add_left hj _
    _ = (i + 1) * c := by ring
    _ ≤ r * c := Nat.mul_le_mul_right c hi

theorem getD_eq_getElem [Inhabited α] (l : List α) (k : Nat) (h : k < l.length) :
    l.getD k default = l[k] := by
  simp [List.getD_eq_getElem?_getD, List.getElem?_eq_getElem h]

/-- Pointwise contract of an expression-source compound assignment: when the
shapes agree, the update succeeds and each coefficient of the result is the
combining function applied to the destination's old coefficient and the
source's coefficient. -/
theorem compoundAssignExt_coeff [Inhabited α] (f : α → α → α) (A B : Array2D α)
    (i j : Nat) (hr : A.rows = B.rows) (hc : A.cols = B.cols)
    (hA : A.data.length = A.rows * A.cols) (hi : i < A.rows) (hj : j < A.cols) :
    ∃ A', compoundAssignExt f A B = some A' ∧
      A'.coeff i j = f (A.coeff i j) (B.coeff i j) := by
  refine ⟨⟨A.rows, A.cols,
           inPlaceUpdate f (fun _ k => B.data.getD k default) A.data⟩, ?_, ?_⟩
  · simp [compoundAssignExt, hr, hc]
  · have hk : i * A.cols + j < A.data.length := by
      rw [hA]; exact linear_index_lt hi hj
    show (inPlaceUpdate f (fun _ k => B.data.getD k default) A.data).getD
          (i * A.cols + j) default
        = f (A.coeff i j) (B.coeff i j)
    rw [inPlaceUpdate, updateFrom_range_ext]
    simp only [hk, and_self, if_true]
    unfold Array2D.coeff
    rw [← hc]

/-- Coefficient of the scalar-broadcast node: at every in-range position the
combining function is applied to the array's coefficient and the scalar. -/
theorem scalarCwise_coeff [Inhabited α] (f : α → α → α) (A : Array2D α) (s : α)
    (hA : A.data.length = A.rows * A.cols)
    (i j : Nat) (hi : i < A.rows) (hj : j < A.cols) :
    (scalarCwise f A s).coeff i j = f (A.coeff i j) s := by
  have hk : i * A.cols + j < A.data.length := by
    rw [hA]; exact linear_index_lt hi hj
  show (A.data.map (fun x => f x s)).getD (i * A.cols + j) default
      = f (A.coeff i j) s
  rw [getD_eq_getElem _ _ (by rw [List.length_map]; exact hk), List.getElem_map]
  unfold Array2D.coeff
  rw [getD_eq_getElem _ _ hk]

theorem option_map_pair_snd_eq_fst (o : Option (Array2D α)) :
    (o.map (fun s => (s, s))).map Prod.snd
      = (o.map (fun s => (s, s))).map Prod.fst := by
  cases o <;> rfl

/-- C1: for every pair of compatible arrays A and B where the source does not
alias the destination, each compound assignment with an expression right-hand
side (`A += B`, `A -= B`, `A *= B`, `A /= B`) succeeds through the in-place
update target bound to A (a single in-place pass, no full-size right-hand-side
temporary) and leaves every coefficient of A equal to the corresponding
combining function applied to A's old coefficient and B's coefficient. -/
theorem compound_assign_expr_pointwise [Inhabited α] [Add α] [Sub α] [Mul α] [Div α]
    (A B : Array2D α) (i j : Nat)
    (hr : A.rows = B.rows) (hc : A.cols = B.cols)
    (hA : A.data.length = A.rows * A.cols)
    (hi : i < A.rows) (hj : j < A.cols) :
    (∃ A', op_pluseq A B = some (A', A') ∧
        A'.coeff i j = A.coeff i j + B.coeff i j) ∧
    (∃ A', op_minuseq A B = some (A', A') ∧
        A'.coeff i j = A.coeff i j - B.coeff i j) ∧
    (∃ A', op_timeseq A B = some (A', A') ∧
        A'.coeff i j = A.coeff i j * B.coeff i j) ∧
    (∃ A', op_diveq A B = some (A', A') ∧
        A'.coeff i j = A.coeff i j / B.coeff i j) := by
  refine ⟨?_, ?_, ?_, ?_⟩
  · obtain ⟨A', hEq, hCo⟩ := compoundAssignExt_coeff (· + ·) A B i j hr hc hA hi hj
    exact ⟨A', by simp [op_pluseq, hEq], hCo⟩
  · obtain ⟨A', hEq, hCo⟩ := compoundAssignExt_coeff (· - ·) A B i j hr hc hA hi hj
    exact ⟨A', by simp [op_minuseq, hEq], hCo⟩
  · obtain ⟨A', hEq, hCo⟩ := compoundAssignExt_coeff (· * ·) A B i j hr hc hA hi hj
    exact ⟨A', by simp [op_timeseq, hEq], hCo⟩
  · obtain ⟨A', hEq, hCo⟩ := compoundAssignExt_coeff (· / ·) A B i j hr hc hA hi hj
    exact ⟨A', by simp [op_diveq, hEq], hCo⟩

theorem compound_assign_expr_pointwise_witness :
    (∃ A', op_pluseq (⟨2, 2, [1, 2, 3, 4]⟩ : Array2D Int) ⟨2, 2, [5, 6, 7, 8]⟩
        = some (A', A') ∧
        A'.coeff 0 1 = (⟨2, 2, [1, 2, 3, 4]⟩ : Array2D Int).coeff 0 1
          + (⟨2, 2, [5, 6, 7, 8]⟩ : Array2D Int).coeff 0 1) ∧
    (∃ A', op_minuseq (⟨2, 2, [1, 2, 3, 4]⟩ : Array2D Int) ⟨2, 2, [5, 6, 7, 8]⟩
        = some (A', A') ∧
        A'.coeff 0 1 = (⟨2, 2, [1, 2, 3, 4]⟩ : Array2D Int).coeff 0 1
          - (⟨2, 2, [5, 6, 7, 8]⟩ : Array2D Int).coeff 0 1) ∧
    (∃ A', op_timeseq (⟨2, 2, [1, 2, 3, 4]⟩ : Array2D Int) ⟨2, 2, [5, 6, 7, 8]⟩
        = some (A', A') ∧
        A'.coeff 0 1 = (⟨2, 2, [1, 2, 3, 4]⟩ : Array2D Int).coeff 0 1
          * (⟨2, 2, [5, 6, 7, 8]⟩ : Array2D Int).coeff 0 1) ∧
    (∃ A', op_diveq (⟨2, 2, [1, 2, 3, 4]⟩ : Array2D Int) ⟨2, 2, [5, 6, 7, 8]⟩
        = some (A', A') ∧
        A'.coeff 0 1 = (⟨2, 2, [1, 2, 3, 4]⟩ : Array2D Int).coeff 0 1
          / (⟨2, 2, [5, 6, 7, 8]⟩ : Array2D Int).coeff 0 1) :=
  compound_assign_expr_pointwise _ _ 0 1 rfl rfl rfl (by decide) (by decide)

/-- C2: `A.array().matrix()` is observationally equal to A at every coefficient
and has the same row and column counts; `array()` on an array-typed expression
is the identity (`*this`), `matrix()` wraps the same underlying coefficients
with no copy, and converting back yields the original value. -/
theorem array_matrix_roundtrip [Inhabited α] (A : Array2D α) :
    A.array = A ∧
    (A.array.matrix).rows = A.rows ∧
    (A.array.matrix).cols = A.cols ∧
    (∀ i j, (A.array.matrix).coeff i j = A.coeff i j) ∧
    (A.array.matrix).array = A :=
  ⟨rfl, rfl, rfl, fun _ _ => rfl, rfl⟩

/-- C3: combining two dynamically sized arrays of incompatible shapes with a
binary operator, or using one as the source of an in-place compound
assignment, is a fatal abort producing no result: no coefficient of any
destination is written. -/
theorem shape_mismatch_fatal_no_write [Inhabited α] (f g : α → α → α)
    (A B : Array2D α) (h : ¬ (A.rows = B.rows ∧ A.cols = B.cols)) :
    cwiseBinaryOp f A B = none ∧ compoundAssignExt g A B = none := by
  constructor
  · simp only [cwiseBinaryOp, if_neg h]
  · simp only [compoundAssignExt, if_neg h]

theorem shape_mismatch_fatal_no_write_witness :
    cwiseBinaryOp (· + ·) (⟨3, 3, [1, 2, 3, 4, 5, 6, 7, 8, 9]⟩ : Array2D Int)
        ⟨2, 2, [1, 2, 3, 4]⟩ = none ∧
    compoundAssignExt (· + ·) (⟨3, 3, [1, 2, 3, 4, 5, 6, 7, 8, 9]⟩ : Array2D Int)
        ⟨2, 2, [1, 2, 3, 4]⟩ = none :=
  shape_mismatch_fatal_no_write _ _ _ _ (by decide)

/-- C4: for all equal-shape containers A and B, the materialized expression
`(A + B) - B` equals A at every coefficient, exactly, over exact scalar
arithmetic. -/
theorem add_sub_roundtrip [Inhabited α] [AddGroup α] (A B : Array2D α)
    (hr : A.rows = B.rows) (hc : A.cols = B.cols)
    (hA : A.data.length = A.rows * A.cols)
    (hB : B.data.length = B.rows * B.cols)
    (i j : Nat) (hi : i < A.rows) (hj : j < A.cols) :
    ∃ C D, cwiseBinaryOp (· + ·) A B = some C ∧
      cwiseBinaryOp (· - ·) C B = some D ∧
      D.coeff i j = A.coeff i j := by
  refine ⟨⟨A.rows, A.cols, List.zipWith (· + ·) A.data B.data⟩,
      ⟨A.rows, A.cols,
       List.zipWith (· - ·) (List.zipWith (· + ·) A.data B.data) B.data⟩,
      ?_, ?_, ?_⟩
  · simp [cwiseBinaryOp, hr, hc]
  · simp [cwiseBinaryOp, hr, hc]
  · have hk : i * A.cols + j < A.data.length := by
      rw [hA]; exact linear_index_lt hi hj
    have hBl : B.data.length = A.data.length := by rw [hA, hB, hr, hc]
    have h1 : (List.zipWith (· + ·) A.data B.data).length = A.data.length := by
      rw [List.length_zipWith, hBl, Nat.min_self]
    have h2 : (List.zipWith (· - ·)
        (List.zipWith (· + ·) A.data B.data) B.data).length = A.data.length := by
      rw [List.length_zipWith, h1, hBl, Nat.min_self]
    show (List.zipWith (· - ·)
        (List.zipWith (· + ·) A.data B.data) B.data).getD
          (i * A.cols + j) default = A.coeff i j
    rw [getD_eq_getElem _ _ (by rw [h2]; exact hk)]
    rw [List.getElem_zipWith, List.getElem_zipWith]
    unfold Array2D.coeff
    rw [getD_eq_getElem _ _ hk]
    exact add_sub_cancel_right _ _

theorem add_sub_roundtrip_witness :
    ∃ C D, cwiseBinaryOp (· + ·) (⟨2, 2, [1, 2, 3, 4]⟩ : Array2D Int)
        ⟨2, 2, [5, 6, 7, 8]⟩ = some C ∧
      cwiseBinaryOp (· - ·) C ⟨2, 2, [5, 6, 7, 8]⟩ = some D ∧
      D.coeff 0 1 = (⟨2, 2, [1, 2, 3, 4]⟩ : Array2D Int).coeff 0 1 :=
  add_sub_roundtrip (⟨2, 2, [1, 2, 3, 4]⟩ : Array2D Int) ⟨2, 2, [5, 6, 7, 8]⟩
    rfl rfl rfl rfl 0 1 (by decide) (by decide)

/-- C5: the self-aliasing in-place update `A *= A` is well defined and leaves
every coefficient of A equal to the square of its original value: the in-place
pass reads each position before overwriting it, so same-index aliasing between
destination and source is safe. -/
theorem timeseq_self_squares [Inhabited α] [Mul α] (A : Array2D α)
    (hA : A.data.length = A.rows * A.cols)
    (i j : Nat) (hi : i < A.rows) (hj : j < A.cols) :
    (op_timeseq_self A).1.coeff i j = A.coeff i j * A.coeff i j ∧
    (op_timeseq_self A).2 = (op_timeseq_self A).1 := by
  refine ⟨?_, rfl⟩
  have hk : i * A.cols + j < A.data.length := by
    rw [hA]; exact linear_index_lt hi hj
  show (inPlaceUpdate (· * ·) (fun b k => b.getD k default) A.data).getD
      (i * A.cols + j) default = A.coeff i j * A.coeff i j
  rw [inPlaceUpdate, updateFrom_range_self]
  simp [hk, Array2D.coeff]

theorem timeseq_self_squares_witness :
    (op_timeseq_self (⟨2, 2, [1, 2, 3, 4]⟩ : Array2D Int)).1.coeff 1 1
        = (⟨2, 2, [1, 2, 3, 4]⟩ : Array2D Int).coeff 1 1
          * (⟨2, 2, [1, 2, 3, 4]⟩ : Array2D Int).coeff 1 1 ∧
    (op_timeseq_self (⟨2, 2, [1, 2, 3, 4]⟩ : Array2D Int)).2
        = (op_timeseq_self (⟨2, 2, [1, 2, 3, 4]⟩ : Array2D Int)).1 :=
  timeseq_self_squares (⟨2, 2, [1, 2, 3, 4]⟩ : Array2D Int) rfl 1 1
    (by decide) (by decide)

/-- C6: `A + s` broadcasts the scalar to every coefficient, yielding
`A.coeff i j + s` at each position; the scalar compound assignments are the
eager self-reassignment `self = self op scalar`, so after `A += s` every
coefficient equals its old value plus s (and after `A -= s`, minus s). -/
theorem scalar_broadcast_and_scalar_compound [Inhabited α] [Add α] [Sub α]
    (A : Array2D α) (s : α) (hA : A.data.length = A.rows * A.cols)
    (i j : Nat) (hi : i < A.rows) (hj : j < A.cols) :
    (scalarCwise (· + ·) A s).coeff i j = A.coeff i j + s ∧
    op_pluseq_scalar A s = operator_assign A (scalarCwise (· + ·) A s) ∧
    op_minuseq_scalar A s = operator_assign A (scalarCwise (· - ·) A s) ∧
    (op_pluseq_scalar A s).1.coeff i j = A.coeff i j + s ∧
    (op_minuseq_scalar A s).1.coeff i j = A.coeff i j - s := by
  refine ⟨scalarCwise_coeff _ A s hA i j hi hj, rfl, rfl, ?_, ?_⟩
  · exact scalarCwise_coeff _ A s hA i j hi hj
  · exact scalarCwise_coeff _ A s hA i j hi hj

theorem scalar_broadcast_and_scalar_compound_witness :
    (scalarCwise (· + ·) (⟨2, 2, [1, 2, 3, 4]⟩ : Array2D Int) 10).coeff 1 0
        = (⟨2, 2, [1, 2, 3, 4]⟩ : Array2D Int).coeff 1 0 + 10 ∧
    op_pluseq_scalar (⟨2, 2, [1, 2, 3, 4]⟩ : Array2D Int) 10
        = operator_assign ⟨2, 2, [1, 2, 3, 4]⟩
            (scalarCwise (· + ·) ⟨2, 2, [1, 2, 3, 4]⟩ 10) ∧
    op_minuseq_scalar (⟨2, 2, [1, 2, 3, 4]⟩ : Array2D Int) 10
        = operator_assign ⟨2, 2, [1, 2, 3, 4]⟩
            (scalarCwise (· - ·) ⟨2, 2, [1, 2, 3, 4]⟩ 10) ∧
    (op_pluseq_scalar (⟨2, 2, [1, 2, 3, 4]⟩ : Array2D Int) 10).1.coeff 1 0
        = (⟨2, 2, [1, 2, 3, 4]⟩ : Array2D Int).coeff 1 0 + 10 ∧
    (op_minuseq_scalar (⟨2, 2, [1, 2, 3, 4]⟩ : Array2D Int) 10).1.coeff 1 0
        = (⟨2, 2, [1, 2, 3, 4]⟩ : Array2D Int).coeff 1 0 - 10 :=
  scalar_broadcast_and_scalar_compound (⟨2, 2, [1, 2, 3, 4]⟩ : Array2D Int) 10
    rfl 1 0 (by decide) (by decide)

/-- C7: the explicit overload `operator=(const ArrayBase&)` forwards to the
same assignment-selection dispatch as the generic template assignment it
suppresses a compiler default for; the two paths are equal and leave the
destination with coefficients equal to the materialized source. -/
theorem operator_assign_equiv [Inhabited α] (D S : Array2D α) :
    operator_assign D S = operator_assign_generic D S ∧
    (operator_assign D S).1.rows = S.rows ∧
    (operator_assign D S).1.cols = S.cols ∧
    (∀ i j, (operator_assign D S).1.coeff i j = S.coeff i j) :=
  ⟨rfl, rfl, rfl, fun _ _ => rfl⟩

/-- C8: every in-place compound assignment with an expression right-hand side
preserves the destination's shape: row count, column count and total size are
identical before and after the update; the self-aliasing form preserves them
too. -/
theorem compound_assign_preserves_shape [Inhabited α] (f : α → α → α)
    (A B A' : Array2D α) (h : compoundAssignExt f A B = some A') :
    A'.rows = A.rows ∧ A'.cols = A.cols ∧ A'.data.length = A.data.length ∧
    (compoundAssignSelf f A).rows = A.rows ∧
    (compoundAssignSelf f A).cols = A.cols ∧
    (compoundAssignSelf f A).data.length = A.data.length := by
  unfold compoundAssignExt at h
  split at h
  · cases h
    exact ⟨rfl, rfl, inPlaceUpdate_length _ _ _, rfl, rfl,
           inPlaceUpdate_length _ _ _⟩
  · cases h

theorem compound_assign_preserves_shape_witness :
    (⟨2, 2, [6, 8, 10, 12]⟩ : Array2D Int).rows
        = (⟨2, 2, [1, 2, 3, 4]⟩ : Array2D Int).rows ∧
    (⟨2, 2, [6, 8, 10, 12]⟩ : Array2D Int).cols
        = (⟨2, 2, [1, 2, 3, 4]⟩ : Array2D Int).cols ∧
    (⟨2, 2, [6, 8, 10, 12]⟩ : Array2D Int).data.length
        = (⟨2, 2, [1, 2, 3, 4]⟩ : Array2D Int).data.length ∧
    (compoundAssignSelf (· + ·) (⟨2, 2, [1, 2, 3, 4]⟩ : Array2D Int)).rows
        = (⟨2, 2, [1, 2, 3, 4]⟩ : Array2D Int).rows ∧
    (compoundAssignSelf (· + ·) (⟨2, 2, [1, 2, 3, 4]⟩ : Array2D Int)).cols
        = (⟨2, 2, [1, 2, 3, 4]⟩ : Array2D Int).cols ∧
    (compoundAssignSelf (· + ·) (⟨2, 2, [1, 2, 3, 4]⟩ : Array2D Int)).data.length
        = (⟨2, 2, [1, 2, 3, 4]⟩ : Array2D Int).data.length :=
  compound_assign_preserves_shape (· + ·) ⟨2, 2, [1, 2, 3, 4]⟩
    ⟨2, 2, [5, 6, 7, 8]⟩ ⟨2, 2, [6, 8, 10, 12]⟩ (by decide)

/-- C9: the elementwise in-place division applies the raw quotient combining
function at every coefficient pair with no zero-divisor guard: for a source B
with a zero coefficient inside A's shape, the operation still succeeds and the
coefficient at that position is the raw quotient of A's old value by zero. -/
theorem diveq_zero_divisor_unguarded (A B : Array2D Int) (i j : Nat)
    (hr : A.rows = B.rows) (hc : A.cols = B.cols)
    (hA : A.data.length = A.rows * A.cols)
    (hi : i < A.rows) (hj : j < A.cols) (hz : B.coeff i j = 0) :
    ∃ A', op_diveq A B = some (A', A') ∧
      A'.coeff i j = A.coeff i j / 0 := by
  obtain ⟨A', hEq, hCo⟩ := compoundAssignExt_coeff (· / ·) A B i j hr hc hA hi hj
  rw [hz] at hCo
  exact ⟨A', by simp [op_diveq, hEq], hCo⟩

theorem diveq_zero_divisor_unguarded_witness :
    ∃ A', op_diveq (⟨1, 1, [6]⟩ : Array2D Int) ⟨1, 1, [0]⟩ = some (A', A') ∧
      A'.coeff 0 0 = (⟨1, 1, [6]⟩ : Array2D Int).coeff 0 0 / 0 :=
  diveq_zero_divisor_unguarded _ _ 0 0 rfl rfl rfl (by decide) (by decide)
    (by decide)

/-- C10: every compound-assignment operator (with scalar or expression
right-hand side) and the explicit assignment operator return the destination
itself after the update: whenever the operation produces a result, the
returned value equals the post-update destination state. -/
theorem operators_return_destination [Inhabited α] [Add α] [Sub α] [Mul α] [Div α]
    (A B : Array2D α) (s : α) :
    (op_pluseq A B).map Prod.snd = (op_pluseq A B).map Prod.fst ∧
    (op_minuseq A B).map Prod.snd = (op_minuseq A B).map Prod.fst ∧
    (op_timeseq A B).map Prod.snd = (op_timeseq A B).map Prod.fst ∧
    (op_diveq A B).map Prod.snd = (op_diveq A B).map Prod.fst ∧
    (op_pluseq_scalar A s).2 = (op_pluseq_scalar A s).1 ∧
    (op_minuseq_scalar A s).2 = (op_minuseq_scalar A s).1 ∧
    (op_timeseq_self A).2 = (op_timeseq_self A).1 ∧
    (operator_assign A B).2 = (operator_assign A B).1 :=
  ⟨option_map_pair_snd_eq_fst _, option_map_pair_snd_eq_fst _,
   option_map_pair_snd_eq_fst _, option_map_pair_snd_eq_fst _,
   rfl, rfl, rfl, rfl⟩

end EigenArrayBase
